import Mathlib

/-
  Verification development for the trajectory planner
  (apps/plan_trajectory/plan_trajectory.cu).

  The source is shallowly embedded: floats are modelled by exact rationals
  (for scores, distances and argument values) and by real numbers (for the
  trigonometric orientation geometry); the CUDA kernels, file loaders and
  spline library are external collaborators and are left abstract.
-/

namespace PlanTrajectory

/- ## Command-line arguments (parse_args, lines 29-106)

   `Arguments` mirrors the `struct Arguments`; the four positional paths are
   taken as explicit inputs.  `util::Arguments` only hands registered options
   to the consumption loop, so an option given to `applyOption` is one of the
   three registered ones: 't'/"trajectory", '\0'/"max-distance",
   '\0'/"focal-length".  The switch in the source handles sopt 't' and,
   for sopt '\0', only lopt == "max-distance"; every other registered long
   option (hence "focal-length") falls into the `throw
   std::invalid_argument("Invalid option")` branch. -/

structure Arguments where
  proxy_mesh : String
  proxy_cloud : String
  guidance_volume : String
  out_trajectory : String
  trajectory : String
  num_views : ℕ
  max_distance : ℚ
  focal_length : ℚ
deriving DecidableEq, Repr

inductive CmdOption where
  | trajectory (path : String)
  | max_distance (v : ℚ)
  | focal_length (v : ℚ)
deriving DecidableEq, Repr

/-- Defaults set in parse_args before the option loop (lines 78-85). -/
def defaultConf (m c g o : String) : Arguments :=
  { proxy_mesh := m
    proxy_cloud := c
    guidance_volume := g
    out_trajectory := o
    trajectory := ""
    num_views := 400
    max_distance := 80
    focal_length := 86 / 100 }

/-- One iteration of the option-consumption loop (lines 87-103).
    The '\0' case accepts only the long option "max-distance"; any other
    registered long option ("focal-length") hits the
    `throw std::invalid_argument("Invalid option")` branch. -/
def applyOption (conf : Arguments) : CmdOption → Except String Arguments
  | .trajectory p => .ok { conf with trajectory := p }
  | .max_distance v => .ok { conf with max_distance := v }
  | .focal_length _ => .error "Invalid option"

/-- The `for (i = args.next_option(); ...)` loop (lines 87-103): options are
    consumed left to right; the first invalid one aborts parsing. -/
def runOptions : Arguments → List CmdOption → Except String Arguments
  | conf, [] => .ok conf
  | conf, o :: os =>
    match applyOption conf o with
    | .ok c => runOptions c os
    | .error e => .error e

def parse_args (m c g o : String) (opts : List CmdOption) : Except String Arguments :=
  runOptions (defaultConf m c g o) opts

/-- Per-point view-history capacity: `uint max_cameras = 20;` (line 214);
    `ddir_hist` is created with `max_cameras` slots per cloud vertex. -/
def max_cameras : ℕ := 20

def viewHistoryCapacity : ℕ := max_cameras

/- ## Grid traversal (grid_trajectory_indices, lines 40-61)

   The C++ pushes pairs into `ret` in loop order; the nested loops become
   nested binds over `List.range`. -/

def grid_trajectory_indices (width height : ℕ) : List (ℕ × ℕ) :=
  (List.range ((height - 1) / 3)).flatMap fun gy =>
    (List.range (width - 2)).flatMap fun gx =>
      let x := if gy % 2 = 0 then 1 + gx else width - 1 - gx
      let y := 1 + 3 * gy
      if gx = 0 ∧ gy ≠ 0 then [(x, y - 2), (x, y - 1)] else [(x, y)]

/-- Spec-side description of one row of the serpentine scan, organized the
    way spec section 4.1 narrates it — the row sits at height y = 1 + 3*gy
    (pitch 3), even rows scan left to right and odd rows right to left, and
    on every row but the first the first column is replaced by two wrap
    entries at y - 2 and y - 1.  Written to be compared, by a proved
    equality, against the loop in the source. -/
def specRow (width gy : ℕ) : List (ℕ × ℕ) :=
  let y := 1 + 3 * gy
  let xAt : ℕ → ℕ := fun c => if gy % 2 = 0 then 1 + c else width - 1 - c
  (if gy = 0 then [(xAt 0, y)] else [(xAt 0, y - 2), (xAt 0, y - 1)]) ++
    (List.range (width - 3)).map (fun c => (xAt (c + 1), y))

def specScan (width height : ℕ) : List (ℕ × ℕ) :=
  (List.range ((height - 1) / 3)).flatMap (specRow width)

/- ## First-strict-argmax fold

   Both the per-column height selection (lines 138-151) and the histogram bin
   selection (lines 313-326) are the same loop shape: running maximum
   initialized to 0, an update only on a strictly larger value, and a default
   that survives when no value exceeds 0.  The fold below carries the running
   maximum together with the index of the last update (`none` when the
   defaults were never overwritten). -/

def argmaxAux (v : ℕ → ℚ) : ℕ → ℚ × Option ℕ
  | 0 => (0, none)
  | n + 1 =>
    let s := argmaxAux v n
    if v n > s.1 then (v n, some n) else s

/- ## Per-column height selection (main, lines 135-153)

   A column of the guidance volume maps z to `none` (null image) or to the
   list of scalar samples of that voxel.  `*std::max_element` on a non-empty
   vector is its maximum; on an empty vector the C++ is undefined, so the
   theorems below restrict to columns without empty sample lists. -/

def sliceMax (vs : List ℚ) : ℚ := vs.foldl max vs.headI

def colVal (col : ℕ → Option (List ℚ)) (z : ℕ) : ℚ :=
  match col z with
  | none => 0
  | some vs => sliceMax vs

/-- The z kept for a column: `oz` starts at depth - 1 and is overwritten by
    each z whose slice value strictly exceeds the running maximum
    (initially 0). -/
def ozOf (col : ℕ → Option (List ℚ)) (depth : ℕ) : ℕ :=
  match (argmaxAux (colVal col) depth).2 with
  | none => depth - 1
  | some z => z

/- ## Seed path sampling (main, lines 156-173)

   `for (float t = 0.0f; t < 1.0f; t += 1.0f / (num_views - 1))` — one camera
   is appended per iteration.  The accumulation is modelled in exact rational
   arithmetic; the fuel argument only serves Lean's termination checker and
   is proved sufficient below. -/

def seedParamsAux (step : ℚ) : ℕ → ℚ → List ℚ
  | 0, _ => []
  | f + 1, t => if t < 1 then t :: seedParamsAux step f (t + step) else []

def seedParams (n : ℕ) : List ℚ :=
  seedParamsAux (1 / ((n : ℚ) - 1)) n 0

/- ## Vector geometry (math::Vec3f / math::Matrix3f operations)

   Exact real arithmetic stands in for float; `normalize` divides by the
   Euclidean norm (mve's Vec3f::normalize). -/

def V3 : Type := ℝ × ℝ × ℝ

noncomputable instance : DecidableEq V3 := Classical.decEq V3

def dot3 (a b : V3) : ℝ := a.1 * b.1 + a.2.1 * b.2.1 + a.2.2 * b.2.2

def cross3 (a b : V3) : V3 :=
  (a.2.1 * b.2.2 - a.2.2 * b.2.1,
   a.2.2 * b.1 - a.1 * b.2.2,
   a.1 * b.2.1 - a.2.1 * b.1)

def smul3 (s : ℝ) (a : V3) : V3 := (s * a.1, s * a.2.1, s * a.2.2)

def neg3 (a : V3) : V3 := (-a.1, -a.2.1, -a.2.2)

def zero3 : V3 := ((0 : ℝ), (0 : ℝ), (0 : ℝ))

noncomputable def normalize3 (v : V3) : V3 := smul3 (1 / Real.sqrt (dot3 v v)) v

/- ## Histogram bin selection and orientation (main, lines 313-353) -/

/-- Histogram values read in raster order: the y loop is outer, the x loop
    inner, so linear index i corresponds to x = i % w, y = i / w. -/
def histIdxVal (hist : ℕ → ℕ → ℚ) (w : ℕ) (i : ℕ) : ℚ := hist (i % w) (i / w)

/-- The selection loop (lines 313-326): running max starts at 0 and theta/phi
    keep their defaults (0, 0) unless some bin value strictly exceeds it.
    The fold records the raster index of the winning bin; `none` when the
    defaults survive.  (The source stores theta/phi at update time; both are
    functions of the stored bin, applied in `angles` below.) -/
def select (hist : ℕ → ℕ → ℚ) (w h : ℕ) : ℚ × Option ℕ :=
  argmaxAux (histIdxVal hist w) (w * h)

noncomputable def thetaOfBin (w x : ℕ) : ℝ := ((x : ℝ) / (w : ℝ)) * (2 * Real.pi)

noncomputable def phiOfBin (h y : ℕ) : ℝ := (1 / 2 + ((y : ℝ) / (h : ℝ)) / 2) * Real.pi

/-- The (theta, phi) pair left behind by the selection loop: the loop
    defaults (0, 0) when no bin value exceeded 0, otherwise the angles of the
    winning bin (lines 313-326). -/
noncomputable def angles (hist : ℕ → ℕ → ℚ) (w h : ℕ) : ℝ × ℝ :=
  match (select hist w h).2 with
  | none => (0, 0)
  | some j => (thetaOfBin w (j % w), phiOfBin h (j / w))

/-- `view_dir(ctheta * sphi, stheta * sphi, cphi)` (line 332). -/
noncomputable def viewRaw (theta phi : ℝ) : V3 :=
  (Real.cos theta * Real.sin phi, Real.sin theta * Real.sin phi, Real.cos phi)

/-- `view_dir.normalize()` (line 333); this is `rz` (line 335). -/
noncomputable def view_dir (theta phi : ℝ) : V3 := normalize3 (viewRaw theta phi)

def upRef : V3 := ((0 : ℝ), (0 : ℝ), (-1 : ℝ))

/-- Lines 337-339: `up` is the reference (0,0,-1) when
    `abs(up.dot(rz)) < 0.99f`, else the fallback `(cphi, sphi, 0)`. -/
noncomputable def upUsed (theta phi : ℝ) : V3 :=
  if |dot3 upRef (view_dir theta phi)| < 99 / 100 then upRef
  else (Real.cos phi, Real.sin phi, (0 : ℝ))

/-- `rx = up.cross(rz).normalize()` (line 341). -/
noncomputable def rxOf (theta phi : ℝ) : V3 :=
  normalize3 (cross3 (upUsed theta phi) (view_dir theta phi))

/-- `ry = rz.cross(rx).normalize()` (line 342). -/
noncomputable def ryOf (theta phi : ℝ) : V3 :=
  normalize3 (cross3 (view_dir theta phi) (rxOf theta phi))

/-- mve::CameraInfo as far as this planner writes it: row-major rotation
    (rows rot0, rot1, rot2) plus translation and focal length. -/
structure CameraPose where
  rot0 : V3
  rot1 : V3
  rot2 : V3
  trans : V3
  flen : ℝ

/-- Row-major 3x3 matrix times vector. -/
def rowsApply (r0 r1 r2 v : V3) : V3 := (dot3 r0 v, dot3 r1 v, dot3 r2 v)

def rotApply (p : CameraPose) (v : V3) : V3 := rowsApply p.rot0 p.rot1 p.rot2 v

/-- The nadir seed pose (lines 159-170): rot = diag(1,-1,-1),
    trans = -rot * pos. -/
def seedPose (pos : V3) (flen : ℝ) : CameraPose :=
  let r0 : V3 := ((1 : ℝ), (0 : ℝ), (0 : ℝ))
  let r1 : V3 := ((0 : ℝ), (-1 : ℝ), (0 : ℝ))
  let r2 : V3 := ((0 : ℝ), (0 : ℝ), (-1 : ℝ))
  ⟨r0, r1, r2, neg3 (rowsApply r0 r1 r2 pos), flen⟩

/-- The pose written back into the trajectory after orientation selection
    (lines 344-353): rows rx, ry, rz and trans = -rot * pos. -/
noncomputable def optimizedPose (theta phi : ℝ) (pos : V3) (flen : ℝ) : CameraPose :=
  let rx := rxOf theta phi
  let ry := ryOf theta phi
  let rz := view_dir theta phi
  ⟨rx, ry, rz, neg3 (rowsApply rx ry rz pos), flen⟩

/-- The pose committed for a waypoint at position pos, given the histogram
    the evaluator produced for it: bin selection (lines 313-326), angle
    conversion, basis construction and write-back (lines 328-353). -/
noncomputable def cameraAt (hist : ℕ → ℕ → ℚ) (w h : ℕ) (pos : V3) (flen : ℝ) :
    CameraPose :=
  optimizedPose (angles hist w h).1 (angles hist w h).2 pos flen

/-- Orthonormality of a pose's rotation rows within tolerance eps. -/
def orthonormalWithin (p : CameraPose) (eps : ℝ) : Prop :=
  |dot3 p.rot0 p.rot0 - 1| ≤ eps ∧ |dot3 p.rot1 p.rot1 - 1| ≤ eps ∧
  |dot3 p.rot2 p.rot2 - 1| ≤ eps ∧ |dot3 p.rot0 p.rot1| ≤ eps ∧
  |dot3 p.rot0 p.rot2| ≤ eps ∧ |dot3 p.rot1 p.rot2| ≤ eps

/-- The view direction the selection commits for a waypoint. -/
noncomputable def chosenDir (hist : ℕ → ℕ → ℚ) (w h : ℕ) : V3 :=
  view_dir (angles hist w h).1 (angles hist w h).2

/- ## Concrete test inputs -/

/-- The all-zero histogram: no surface point visible from the waypoint. -/
def zeroHist : ℕ → ℕ → ℚ := fun _ _ => 0

/-- A histogram whose only positive score sits in bin (0, 0). -/
def oneBinHist : ℕ → ℕ → ℚ := fun x y => if x = 0 ∧ y = 0 then 1 else 0

/-- A column with a single positive sample at z = 0. -/
def posCol : ℕ → Option (List ℚ) := fun z => if z = 0 then some [1] else none

/-- A column whose only data slice (z = 0) has maximum sample 0. -/
def badCol : ℕ → Option (List ℚ) := fun z => if z = 0 then some [0] else none

/- ## Lemmas about the first-strict-argmax fold -/

theorem argmaxAux_fst_nonneg (v : ℕ → ℚ) (n : ℕ) : 0 ≤ (argmaxAux v n).1 := by
  induction n with
  | zero => simp [argmaxAux]
  | succ n ih =>
    simp only [argmaxAux]
    split
    · exact le_of_lt (lt_of_le_of_lt ih (by assumption))
    · exact ih

theorem argmaxAux_le (v : ℕ → ℚ) (n : ℕ) :
    ∀ i, i < n → v i ≤ (argmaxAux v n).1 := by
  induction n with
  | zero => intro i hi; omega
  | succ n ih =>
    intro i hi
    simp only [argmaxAux]
    rcases Nat.lt_succ_iff_lt_or_eq.mp hi with h | h
    · split
      · exact le_of_lt (lt_of_le_of_lt (ih i h) (by assumption))
      · exact ih i h
    · subst h
      split
      · exact le_refl _
      · exact le_of_not_lt (by assumption)

theorem argmaxAux_none (v : ℕ → ℚ) (n : ℕ)
    (h : (argmaxAux v n).2 = none) :
    (argmaxAux v n).1 = 0 ∧ ∀ i, i < n → v i ≤ 0 := by
  induction n with
  | zero => exact ⟨rfl, by omega⟩
  | succ n ih =>
    simp only [argmaxAux] at h ⊢
    by_cases hc : v n > (argmaxAux v n).1
    · simp [hc] at h
    · simp only [hc, if_false, if_neg hc] at h ⊢
      obtain ⟨h1, h2⟩ := ih h
      refine ⟨h1, fun i hi => ?_⟩
      rcases Nat.lt_succ_iff_lt_or_eq.mp hi with hlt | heq
      · exact h2 i hlt
      · subst heq
        have := le_of_not_lt hc
        rw [h1] at this
        exact this

theorem argmaxAux_some (v : ℕ → ℚ) (n : ℕ) (j : ℕ)
    (h : (argmaxAux v n).2 = some j) :
    j < n ∧ v j = (argmaxAux v n).1 ∧ 0 < v j ∧ ∀ i, i < j → v i < v j := by
  induction n with
  | zero => simp [argmaxAux] at h
  | succ n ih =>
    simp only [argmaxAux] at h ⊢
    by_cases hc : v n > (argmaxAux v n).1
    · simp only [hc, if_pos hc] at h ⊢
      have hnj : n = j := by
        simpa using h
      subst hnj
      refine ⟨Nat.lt_succ_self n, rfl, ?_, fun i hi => ?_⟩
      · exact lt_of_le_of_lt (argmaxAux_fst_nonneg v n) hc
      · exact lt_of_le_of_lt (argmaxAux_le v n i hi) hc
    · simp only [hc, if_false, if_neg hc] at h ⊢
      obtain ⟨h1, h2, h3, h4⟩ := ih h
      exact ⟨Nat.lt_succ_of_lt h1, h2, h3, h4⟩

theorem argmaxAux_mem (v : ℕ → ℚ) (n : ℕ)
    (h : ∃ i, i < n ∧ 0 < v i) :
    ∃ j, (argmaxAux v n).2 = some j := by
  cases hs : (argmaxAux v n).2 with
  | none =>
    obtain ⟨i, hi, hv⟩ := h
    have := (argmaxAux_none v n hs).2 i hi
    exact absurd hv (not_lt.mpr this)
  | some j => exact ⟨j, rfl⟩

/- ## Vector geometry lemmas -/

theorem dot3_comm (a b : V3) : dot3 a b = dot3 b a := by
  obtain ⟨x, y, z⟩ := a
  obtain ⟨x', y', z'⟩ := b
  simp only [dot3]
  ring

theorem dot3_self_nonneg (a : V3) : 0 ≤ dot3 a a := by
  obtain ⟨x, y, z⟩ := a
  simp only [dot3]
  nlinarith [sq_nonneg x, sq_nonneg y, sq_nonneg z]

theorem dot3_smul_left (s : ℝ) (a b : V3) : dot3 (smul3 s a) b = s * dot3 a b := by
  obtain ⟨x, y, z⟩ := a
  obtain ⟨x', y', z'⟩ := b
  simp only [dot3, smul3]
  ring

theorem dot3_smul_right (s : ℝ) (a b : V3) : dot3 a (smul3 s b) = s * dot3 a b := by
  obtain ⟨x, y, z⟩ := a
  obtain ⟨x', y', z'⟩ := b
  simp only [dot3, smul3]
  ring

theorem dot3_cross_left (a b : V3) : dot3 (cross3 a b) a = 0 := by
  obtain ⟨x, y, z⟩ := a
  obtain ⟨x', y', z'⟩ := b
  simp only [dot3, cross3]
  ring

theorem dot3_cross_right (a b : V3) : dot3 (cross3 a b) b = 0 := by
  obtain ⟨x, y, z⟩ := a
  obtain ⟨x', y', z'⟩ := b
  simp only [dot3, cross3]
  ring

/-- Lagrange's identity for the cross product. -/
theorem dot3_cross_self (a b : V3) :
    dot3 (cross3 a b) (cross3 a b) = dot3 a a * dot3 b b - (dot3 a b) ^ 2 := by
  obtain ⟨x, y, z⟩ := a
  obtain ⟨x', y', z'⟩ := b
  simp only [dot3, cross3]
  ring

/-- Normalizing a vector of positive squared norm yields a unit vector. -/
theorem normalize3_unit (v : V3) (h : 0 < dot3 v v) :
    dot3 (normalize3 v) (normalize3 v) = 1 := by
  simp only [normalize3, dot3_smul_left, dot3_smul_right]
  have hs : Real.sqrt (dot3 v v) ^ 2 = dot3 v v := Real.sq_sqrt (le_of_lt h)
  have hpos : 0 < Real.sqrt (dot3 v v) := Real.sqrt_pos.mpr h
  field_simp

/-- Normalizing an exactly unit vector is the identity. -/
theorem normalize3_id (v : V3) (h : dot3 v v = 1) : normalize3 v = v := by
  obtain ⟨x, y, z⟩ := v
  simp only [normalize3, h, Real.sqrt_one, smul3]
  norm_num

theorem viewRaw_unit (theta phi : ℝ) :
    dot3 (viewRaw theta phi) (viewRaw theta phi) = 1 := by
  simp only [viewRaw, dot3]
  nlinarith [Real.sin_sq_add_cos_sq theta, Real.sin_sq_add_cos_sq phi]

theorem view_dir_eq_raw (theta phi : ℝ) : view_dir theta phi = viewRaw theta phi :=
  normalize3_id _ (viewRaw_unit theta phi)

theorem view_dir_unit (theta phi : ℝ) :
    dot3 (view_dir theta phi) (view_dir theta phi) = 1 := by
  rw [view_dir_eq_raw]
  exact viewRaw_unit theta phi

/-- The up vector actually used is always exactly unit. -/
theorem upUsed_unit (theta phi : ℝ) :
    dot3 (upUsed theta phi) (upUsed theta phi) = 1 := by
  rw [upUsed]
  split
  · simp [upRef, dot3]
  · simp only [dot3]
    nlinarith [Real.sin_sq_add_cos_sq phi]

/-- In both branches the cross product `up x rz` has squared norm at least
    (1 - 0.99^2) > 0: in the stable branch because |up . rz| < 0.99 with both
    unit; in the fallback branch because |cos phi| >= 0.99 bounds
    |up . rz| <= |sin phi|. -/
theorem cross_up_rz_pos (theta phi : ℝ) :
    0 < dot3 (cross3 (upUsed theta phi) (view_dir theta phi))
        (cross3 (upUsed theta phi) (view_dir theta phi)) := by
  rw [dot3_cross_self, upUsed_unit, view_dir_unit]
  rw [upUsed]
  split
  · have habs : |dot3 upRef (view_dir theta phi)| < 99 / 100 := by assumption
    have := abs_lt.mp habs
    nlinarith [this.1, this.2]
  · have habs : ¬ |dot3 upRef (view_dir theta phi)| < 99 / 100 := by assumption
    have h99 : (99 : ℝ) / 100 ≤ |dot3 upRef (view_dir theta phi)| := le_of_not_lt habs
    have hdot : dot3 upRef (view_dir theta phi) = -Real.cos phi := by
      rw [view_dir_eq_raw]
      simp only [upRef, viewRaw, dot3]
      ring
    rw [hdot, abs_neg] at h99
    have hcos2 : (99 : ℝ) / 100 * (99 / 100) ≤ Real.cos phi * Real.cos phi := by
      have h0 : (0 : ℝ) ≤ 99 / 100 := by norm_num
      nlinarith [abs_nonneg (Real.cos phi), sq_abs (Real.cos phi)]
    have hup : dot3 (Real.cos phi, Real.sin phi, (0 : ℝ)) (view_dir theta phi)
        = Real.sin phi * (Real.cos phi * Real.cos theta + Real.sin phi * Real.sin theta) := by
      rw [view_dir_eq_raw]
      simp only [viewRaw, dot3]
      ring
    rw [hup]
    have hcs : (Real.cos phi * Real.cos theta + Real.sin phi * Real.sin theta) ^ 2 ≤ 1 := by
      nlinarith [sq_nonneg (Real.cos phi * Real.sin theta - Real.sin phi * Real.cos theta),
        Real.sin_sq_add_cos_sq theta, Real.sin_sq_add_cos_sq phi]
    have hsin2 : Real.sin phi ^ 2 ≤ 1 - (99 : ℝ) / 100 * (99 / 100) := by
      nlinarith [Real.sin_sq_add_cos_sq phi]
    nlinarith [sq_nonneg (Real.sin phi * (Real.cos phi * Real.cos theta + Real.sin phi * Real.sin theta)),
      sq_nonneg (Real.sin phi), mul_self_nonneg (Real.cos phi * Real.cos theta + Real.sin phi * Real.sin theta)]

theorem rxOf_unit (theta phi : ℝ) : dot3 (rxOf theta phi) (rxOf theta phi) = 1 :=
  normalize3_unit _ (cross_up_rz_pos theta phi)

theorem rxOf_orth_rz (theta phi : ℝ) : dot3 (rxOf theta phi) (view_dir theta phi) = 0 := by
  simp only [rxOf, normalize3, dot3_smul_left]
  rw [dot3_cross_right]
  ring

/-- `rz x rx` is exactly unit, so its normalization is the identity. -/
theorem cross_rz_rx_unit (theta phi : ℝ) :
    dot3 (cross3 (view_dir theta phi) (rxOf theta phi))
      (cross3 (view_dir theta phi) (rxOf theta phi)) = 1 := by
  rw [dot3_cross_self, view_dir_unit, rxOf_unit]
  have hsym : dot3 (view_dir theta phi) (rxOf theta phi) = 0 := by
    rw [dot3_comm]
    exact rxOf_orth_rz theta phi
  rw [hsym]
  norm_num

theorem ryOf_eq_cross (theta phi : ℝ) :
    ryOf theta phi = cross3 (view_dir theta phi) (rxOf theta phi) :=
  normalize3_id _ (cross_rz_rx_unit theta phi)

theorem ryOf_unit (theta phi : ℝ) : dot3 (ryOf theta phi) (ryOf theta phi) = 1 := by
  rw [ryOf_eq_cross]
  exact cross_rz_rx_unit theta phi

theorem ryOf_orth_rz (theta phi : ℝ) : dot3 (ryOf theta phi) (view_dir theta phi) = 0 := by
  rw [ryOf_eq_cross]
  exact dot3_cross_left _ _

theorem ryOf_orth_rx (theta phi : ℝ) : dot3 (ryOf theta phi) (rxOf theta phi) = 0 := by
  rw [ryOf_eq_cross]
  exact dot3_cross_right _ _

theorem argmaxAux_eq_none (v : ℕ → ℚ) (n : ℕ) (h : ∀ i, i < n → v i ≤ 0) :
    (argmaxAux v n).2 = none ∧ (argmaxAux v n).1 = 0 := by
  induction n with
  | zero => exact ⟨rfl, rfl⟩
  | succ n ih =>
    obtain ⟨h2, h1⟩ := ih fun i hi => h i (Nat.lt_succ_of_lt hi)
    simp only [argmaxAux]
    have hc : ¬ v n > (argmaxAux v n).1 := by
      rw [h1]
      exact not_lt.mpr (h n (Nat.lt_succ_self n))
    simp only [hc, if_false, if_neg hc]
    exact ⟨h2, h1⟩

theorem dot3_zero3 : dot3 zero3 zero3 = 0 := by
  simp [dot3, zero3]

/- ## Lemmas about the selection pipeline -/

theorem phiOfBin_bounds (y : ℕ) (hy : y < 90) :
    Real.pi / 2 ≤ phiOfBin 90 y ∧ phiOfBin 90 y < Real.pi := by
  have hpi := Real.pi_pos
  have hy' : (y : ℝ) < 90 := by exact_mod_cast hy
  have hy0 : (0 : ℝ) ≤ (y : ℝ) := Nat.cast_nonneg y
  constructor
  · rw [phiOfBin]
    nlinarith
  · rw [phiOfBin]
    nlinarith

/-- When no histogram value exceeds 0, the selection loop keeps its defaults:
    no bin is recorded and theta = phi = 0. -/
theorem select_defaults (hist : ℕ → ℕ → ℚ)
    (h : ∀ x, x < 256 → ∀ y, y < 90 → hist x y ≤ 0) :
    (select hist 256 90).2 = none ∧ angles hist 256 90 = (0, 0) := by
  have hall : ∀ i, i < 256 * 90 → histIdxVal hist 256 i ≤ 0 := by
    intro i hi
    exact h (i % 256) (by omega) (i / 256) (by omega)
  have hnone := (argmaxAux_eq_none (histIdxVal hist 256) (256 * 90) hall).1
  refine ⟨hnone, ?_⟩
  rw [angles]
  rw [show (select hist 256 90).2 = none from hnone]

theorem view_dir_zero_zero : view_dir 0 0 = ((0 : ℝ), (0 : ℝ), (1 : ℝ)) := by
  rw [view_dir_eq_raw]
  simp [viewRaw]

/- ## Lemmas about argument parsing -/

/-- The option-consumption loop never touches num_views or focal_length:
    no case of the switch assigns either field. -/
theorem runOptions_preserves_views : ∀ (opts : List CmdOption) (conf r : Arguments),
    runOptions conf opts = .ok r →
    r.num_views = conf.num_views ∧ r.focal_length = conf.focal_length := by
  intro opts
  induction opts with
  | nil =>
    intro conf r h
    simp only [runOptions] at h
    cases h
    exact ⟨rfl, rfl⟩
  | cons o os ih =>
    intro conf r h
    cases o with
    | trajectory p =>
      simp only [runOptions, applyOption] at h
      simpa using ih _ _ h
    | max_distance v =>
      simp only [runOptions, applyOption] at h
      simpa using ih _ _ h
    | focal_length v =>
      simp only [runOptions, applyOption] at h
      exact Except.noConfusion h

/-- Every successful parse leaves the defaults num_views = 400 and
    focal_length = 0.86 in place. -/
theorem parse_args_defaults (m c g o : String) (opts : List CmdOption) (r : Arguments)
    (h : parse_args m c g o opts = .ok r) :
    r.num_views = 400 ∧ r.focal_length = 86 / 100 :=
  runOptions_preserves_views opts (defaultConf m c g o) r h

/- ## Lemmas about the seed-parameter loop -/

/-- Exact-arithmetic unrolling of the seed loop: starting fuel n - j at
    parameter j/(n-1), the loop emits exactly the parameters
    (j+k)/(n-1) for k < (n-1) - j. -/
theorem seedParamsAux_char (n : ℕ) (hn : 2 ≤ n) :
    ∀ (m j : ℕ), j + m = n - 1 →
      seedParamsAux (1 / ((n : ℚ) - 1)) (n - j) ((j : ℚ) / ((n : ℚ) - 1))
        = (List.range m).map (fun k => (((j + k : ℕ) : ℚ) / ((n : ℚ) - 1))) := by
  have hpos : (0 : ℚ) < (n : ℚ) - 1 := by
    have : (2 : ℚ) ≤ (n : ℚ) := by exact_mod_cast hn
    linarith
  intro m
  induction m with
  | zero =>
    intro j hj
    have hj' : j = n - 1 := by omega
    subst hj'
    have hfuel : n - (n - 1) = 1 := by omega
    have ht : ((n - 1 : ℕ) : ℚ) / ((n : ℚ) - 1) = 1 := by
      have : ((n - 1 : ℕ) : ℚ) = (n : ℚ) - 1 := by
        push_cast [Nat.cast_sub (by omega : 1 ≤ n)]
        ring
      rw [this]
      field_simp
    rw [hfuel, ht]
    simp [seedParamsAux]
  | succ m ih =>
    intro j hj
    have hjlt : j < n - 1 := by omega
    have hfuel : n - j = (n - (j + 1)) + 1 := by omega
    have htlt : ((j : ℚ)) / ((n : ℚ) - 1) < 1 := by
      rw [div_lt_one hpos]
      have : ((j : ℚ)) < ((n - 1 : ℕ) : ℚ) := by exact_mod_cast hjlt
      calc (j : ℚ) < ((n - 1 : ℕ) : ℚ) := this
        _ = (n : ℚ) - 1 := by push_cast [Nat.cast_sub (by omega : 1 ≤ n)]; ring
    rw [hfuel]
    simp only [seedParamsAux, if_pos htlt]
    have hstep : ((j : ℚ)) / ((n : ℚ) - 1) + 1 / ((n : ℚ) - 1)
        = (((j + 1 : ℕ) : ℚ)) / ((n : ℚ) - 1) := by
      push_cast
      field_simp
    rw [hstep, ih (j + 1) (by omega)]
    rw [List.range_succ_eq_map, List.map_cons, List.map_map]
    congr 1
    apply List.map_congr_left
    intro a _
    simp only [Function.comp]
    push_cast
    ring

/- ## Lemmas about the grid traversal -/

theorem flatMapCongr {α β : Type} (l : List α) (f g : α → List β)
    (h : ∀ a ∈ l, f a = g a) : l.flatMap f = l.flatMap g := by
  induction l with
  | nil => rfl
  | cons a l ih =>
    simp only [List.flatMap_cons]
    rw [h a (List.mem_cons_self a l), ih fun b hb => h b (List.mem_cons_of_mem a hb)]

/-- One row of the nested loop equals the spec-shaped row. -/
theorem code_row_eq (W gy : ℕ) (hW : 3 ≤ W) :
    ((List.range (W - 2)).flatMap fun gx =>
      let x := if gy % 2 = 0 then 1 + gx else W - 1 - gx
      let y := 1 + 3 * gy
      if gx = 0 ∧ gy ≠ 0 then [(x, y - 2), (x, y - 1)] else [(x, y)])
    = specRow W gy := by
  obtain ⟨m, hm⟩ : ∃ m, W - 2 = m + 1 := ⟨W - 3, by omega⟩
  have hm3 : W - 3 = m := by omega
  simp only [specRow, hm3, hm]
  rw [List.range_succ_eq_map, List.flatMap_cons, List.flatMap_map]
  congr 1
  · cases gy <;> simp
  · have hrest : ((List.range m).flatMap fun a =>
        let x := if gy % 2 = 0 then 1 + (a + 1) else W - 1 - (a + 1)
        let y := 1 + 3 * gy
        if a + 1 = 0 ∧ gy ≠ 0 then [(x, y - 2), (x, y - 1)] else [(x, y)])
        = (List.range m).flatMap fun a =>
          [((if gy % 2 = 0 then 1 + (a + 1) else W - 1 - (a + 1)), 1 + 3 * gy)] := by
      apply flatMapCongr
      intro a _
      simp
    rw [hrest, ← List.map_eq_flatMap]

/-- The nested loop of grid_trajectory_indices realizes exactly the
    row-by-row serpentine decomposition described by the spec. -/
theorem grid_eq_specScan (W H : ℕ) (hW : 3 ≤ W) :
    grid_trajectory_indices W H = specScan W H := by
  unfold grid_trajectory_indices specScan
  apply flatMapCongr
  intro gy _
  exact code_row_eq W gy hW

/-- Bounds of the visited cells: x ranges over [1, W-1] (even rows stay in
    [1, W-2], odd rows in [2, W-1]) and y over [1, H-2]. -/
theorem grid_bounds (W H : ℕ) (hW : 3 ≤ W) (hH : 4 ≤ H) :
    ∀ p ∈ grid_trajectory_indices W H,
      1 ≤ p.1 ∧ p.1 ≤ W - 1 ∧ 1 ≤ p.2 ∧ p.2 ≤ H - 2 := by
  intro p hp
  simp only [grid_trajectory_indices, List.mem_flatMap, List.mem_range] at hp
  obtain ⟨gy, hgy, gx, hgx, hp⟩ := hp
  have h3 : 3 * gy + 3 ≤ H - 1 := by omega
  by_cases hpar : gy % 2 = 0
  · simp only [hpar, if_pos rfl] at hp
    split at hp <;> simp only [List.mem_cons, List.mem_singleton] at hp <;>
      rcases hp with hp | hp <;> (try subst hp) <;> simp_all <;> omega
  · simp only [hpar, if_neg hpar] at hp
    split at hp <;> simp only [List.mem_cons, List.mem_singleton] at hp <;>
      rcases hp with hp | hp <;> (try subst hp) <;> simp_all <;> omega

/-- The full parameter list: 0, 1/(n-1), ..., (n-2)/(n-1). -/
theorem seedParams_char (n : ℕ) (hn : 2 ≤ n) :
    seedParams n = (List.range (n - 1)).map (fun k : ℕ => ((k : ℚ) / ((n : ℚ) - 1))) := by
  have h := seedParamsAux_char n hn (n - 1) 0 (by omega)
  simp only [Nat.sub_zero, Nat.cast_zero, zero_div] at h
  rw [seedParams, h]
  apply List.map_congr_left
  intro k _
  norm_num

/- # Claim theorems -/

/-- Claim C1: on a waypoint whose histogram is all zeros the code raises no
    DegenerateOrientation condition; the selection loop records no bin, the
    defaults theta = phi = 0 survive, and a pose whose forward row is (0,0,1)
    is still committed into the trajectory.  This evaluates the code at the
    claim's failing input; the claim itself (fail with DegenerateOrientation
    rather than commit) is what the spec mandates and the code does not do. -/
theorem C1_no_degenerate_error (pos : V3) (flen : ℝ) :
    (select zeroHist 256 90).2 = none
    ∧ angles zeroHist 256 90 = (0, 0)
    ∧ (cameraAt zeroHist 256 90 pos flen).rot2 = ((0 : ℝ), (0 : ℝ), (1 : ℝ)) := by
  obtain ⟨hsel, hang⟩ := select_defaults zeroHist (fun x _ y _ => le_refl 0)
  refine ⟨hsel, hang, ?_⟩
  show view_dir (angles zeroHist 256 90).1 (angles zeroHist 256 90).2 = _
  rw [hang]
  exact view_dir_zero_zero

/-- Claim C2, counterexample: in the default invocation the requested view
    count is 400 while the per-point direction-history capacity is the
    hard-coded 20, so the capacity does not equal the trajectory's camera
    count as the claim states. -/
theorem C2_counterexample :
    parse_args "mesh" "cloud" "vol" "out" [] = Except.ok (defaultConf "mesh" "cloud" "vol" "out")
    ∧ (defaultConf "mesh" "cloud" "vol" "out").num_views = 400
    ∧ viewHistoryCapacity = 20
    ∧ viewHistoryCapacity ≠ (defaultConf "mesh" "cloud" "vol" "out").num_views := by
  exact ⟨rfl, rfl, rfl, by decide⟩

/-- Claim C2 (amended): the ViewHistory capacity is the hard-coded constant
    max_cameras = 20, while every successful invocation keeps the default
    num_views = 400 (there is no option to change it), so the capacity is
    strictly smaller than the requested view count rather than equal to it. -/
theorem C2_capacity_is_constant (m c g o : String) (opts : List CmdOption) (r : Arguments)
    (h : parse_args m c g o opts = Except.ok r) :
    viewHistoryCapacity = 20 ∧ r.num_views = 400 ∧ viewHistoryCapacity < r.num_views := by
  obtain ⟨hv, _⟩ := parse_args_defaults m c g o opts r h
  refine ⟨rfl, hv, ?_⟩
  rw [hv]
  decide

/-- Witness for C2: the default invocation parses successfully and the
    capacity/view-count conclusion holds for it. -/
theorem C2_capacity_is_constant_witness :
    parse_args "mesh" "cloud" "vol" "out" [] = Except.ok (defaultConf "mesh" "cloud" "vol" "out")
    ∧ (viewHistoryCapacity = 20 ∧ (defaultConf "mesh" "cloud" "vol" "out").num_views = 400
      ∧ viewHistoryCapacity < (defaultConf "mesh" "cloud" "vol" "out").num_views) :=
  ⟨rfl, C2_capacity_is_constant "mesh" "cloud" "vol" "out" [] _ rfl⟩

/-- Claim C3, counterexample: at the requested view count 2 the seed loop
    emits the single parameter 0 — one pose, not two.  (All quantities here,
    0, 1 and the step 1/(2-1) = 1, are exactly representable in binary32, so
    the exact-arithmetic model agrees with the float loop at this input.) -/
theorem C3_counterexample :
    seedParams 2 = [0] ∧ (seedParams 2).length ≠ 2 := by
  have h : seedParams 2 = [0] := by
    rw [seedParams_char 2 (by norm_num)]
    rw [List.range_succ]
    simp
  refine ⟨h, ?_⟩
  rw [h]
  decide

/-- Claim C3 (amended): for every requested view count n at least 2, the
    seed loop samples parameters 0, 1/(n-1), 2/(n-1), ... while t < 1, i.e.
    (in exact arithmetic) exactly n - 1 evenly spaced parameters covering
    [0, 1) with spacing 1/(n-1) — one pose per parameter, hence n - 1 poses,
    not n. -/
theorem C3_seed_parameters (n : ℕ) (hn : 2 ≤ n) :
    seedParams n = (List.range (n - 1)).map (fun k : ℕ => ((k : ℚ) / ((n : ℚ) - 1)))
    ∧ (seedParams n).length = n - 1
    ∧ ∀ t ∈ seedParams n, 0 ≤ t ∧ t < 1 := by
  have hc := seedParams_char n hn
  have hpos : (0 : ℚ) < (n : ℚ) - 1 := by
    have : (2 : ℚ) ≤ (n : ℚ) := by exact_mod_cast hn
    linarith
  refine ⟨hc, ?_, ?_⟩
  · rw [hc]
    simp
  · intro t ht
    rw [hc] at ht
    simp only [List.mem_map, List.mem_range] at ht
    obtain ⟨k, hk, rfl⟩ := ht
    constructor
    · positivity
    · rw [div_lt_one hpos]
      have hk' : (k : ℚ) < ((n - 1 : ℕ) : ℚ) := by exact_mod_cast hk
      calc (k : ℚ) < ((n - 1 : ℕ) : ℚ) := hk'
        _ = (n : ℚ) - 1 := by push_cast [Nat.cast_sub (by omega : 1 ≤ n)]; ring

/-- Witness for C3 (amended) at n = 5: parameters 0, 1/4, 2/4, 3/4. -/
theorem C3_seed_parameters_witness :
    2 ≤ 5
    ∧ (seedParams 5 = (List.range (5 - 1)).map (fun k : ℕ => ((k : ℚ) / ((5 : ℚ) - 1)))
      ∧ (seedParams 5).length = 5 - 1
      ∧ ∀ t ∈ seedParams 5, 0 ≤ t ∧ t < 1) :=
  ⟨by norm_num, C3_seed_parameters 5 (by norm_num)⟩

/-- Claim C4: supplying the documented focal-length option makes argument
    parsing throw std::invalid_argument("Invalid option") — the option is
    registered and documented but the consumption switch handles only
    "max-distance" among the long options, so focal_length can never be set
    and stays 0.86. -/
theorem C4_focal_length_rejected (v : ℚ) (m c g o : String) :
    parse_args m c g o [CmdOption.focal_length v] = Except.error "Invalid option" := rfl

/-- Claim C5: whenever the chosen view direction is near-vertical
    (|(0,0,-1) . d| at least 0.99), the fallback up vector (cos phi, sin phi, 0)
    replaces (0,0,-1), and both basis cross products are nonzero, so the
    normalized right and recomputed up vectors are exactly unit — never NaN
    and never zero-length. -/
theorem C5_fallback_basis (theta phi : ℝ)
    (h : (99 : ℝ) / 100 ≤ |dot3 upRef (view_dir theta phi)|) :
    upUsed theta phi = (Real.cos phi, Real.sin phi, (0 : ℝ))
    ∧ cross3 (upUsed theta phi) (view_dir theta phi) ≠ zero3
    ∧ cross3 (view_dir theta phi) (rxOf theta phi) ≠ zero3
    ∧ dot3 (rxOf theta phi) (rxOf theta phi) = 1
    ∧ dot3 (ryOf theta phi) (ryOf theta phi) = 1 := by
  have hnot : ¬ |dot3 upRef (view_dir theta phi)| < 99 / 100 := not_lt.mpr h
  refine ⟨by rw [upUsed, if_neg hnot], ?_, ?_, rxOf_unit theta phi, ryOf_unit theta phi⟩
  · intro hzero
    have hp := cross_up_rz_pos theta phi
    rw [hzero, dot3_zero3] at hp
    exact lt_irrefl 0 hp
  · intro hzero
    have hu := cross_rz_rx_unit theta phi
    rw [hzero, dot3_zero3] at hu
    norm_num at hu

/-- Witness for C5 at theta = 0, phi = pi: the direction is exactly
    (0, 0, -1). -/
theorem C5_fallback_basis_witness :
    (99 : ℝ) / 100 ≤ |dot3 upRef (view_dir 0 Real.pi)|
    ∧ (upUsed 0 Real.pi = (Real.cos Real.pi, Real.sin Real.pi, (0 : ℝ))
      ∧ cross3 (upUsed 0 Real.pi) (view_dir 0 Real.pi) ≠ zero3
      ∧ cross3 (view_dir 0 Real.pi) (rxOf 0 Real.pi) ≠ zero3
      ∧ dot3 (rxOf 0 Real.pi) (rxOf 0 Real.pi) = 1
      ∧ dot3 (ryOf 0 Real.pi) (ryOf 0 Real.pi) = 1) := by
  have h : (99 : ℝ) / 100 ≤ |dot3 upRef (view_dir 0 Real.pi)| := by
    rw [view_dir_eq_raw]
    simp only [viewRaw, Real.cos_zero, Real.sin_zero, Real.cos_pi, Real.sin_pi, upRef, dot3]
    norm_num
  exact ⟨h, C5_fallback_basis 0 Real.pi h⟩

/-- Claim C6: on a histogram with a strictly positive bin, the selection
    loop returns the raster-first strictly maximal bin j (every bin scores at
    most bin j, every earlier bin strictly less), sets
    theta = (x/256) * 2pi and phi = (1/2 + (y/90)/2) * pi with x = j % 256,
    y = j / 256, phi landing in the downward hemisphere [pi/2, pi), and
    commits the unit direction (cos theta sin phi, sin theta sin phi,
    cos phi). -/
theorem C6_bin_selection (hist : ℕ → ℕ → ℚ)
    (hpos : ∃ x, x < 256 ∧ ∃ y, y < 90 ∧ 0 < hist x y) :
    ∃ j, j < 256 * 90 ∧ (select hist 256 90).2 = some j
      ∧ (∀ i, i < 256 * 90 → histIdxVal hist 256 i ≤ histIdxVal hist 256 j)
      ∧ (∀ i, i < j → histIdxVal hist 256 i < histIdxVal hist 256 j)
      ∧ angles hist 256 90 = (thetaOfBin 256 (j % 256), phiOfBin 90 (j / 256))
      ∧ Real.pi / 2 ≤ phiOfBin 90 (j / 256) ∧ phiOfBin 90 (j / 256) < Real.pi
      ∧ chosenDir hist 256 90
          = viewRaw (thetaOfBin 256 (j % 256)) (phiOfBin 90 (j / 256)) := by
  obtain ⟨x, hx, y, hy, hv⟩ := hpos
  have hidx : histIdxVal hist 256 (y * 256 + x) = hist x y := by
    rw [histIdxVal]
    congr 1
    · omega
    · omega
  have hex : ∃ i, i < 256 * 90 ∧ 0 < histIdxVal hist 256 i := by
    refine ⟨y * 256 + x, by omega, ?_⟩
    rw [hidx]
    exact hv
  obtain ⟨j, hj⟩ := argmaxAux_mem (histIdxVal hist 256) (256 * 90) hex
  obtain ⟨hjlt, hjeq, _, hjfirst⟩ := argmaxAux_some (histIdxVal hist 256) (256 * 90) j hj
  have hsel : (select hist 256 90).2 = some j := hj
  have hang : angles hist 256 90 = (thetaOfBin 256 (j % 256), phiOfBin 90 (j / 256)) := by
    rw [angles, hsel]
  have hyj : j / 256 < 90 := by omega
  obtain ⟨hphi1, hphi2⟩ := phiOfBin_bounds (j / 256) hyj
  refine ⟨j, hjlt, hsel, ?_, hjfirst, hang, hphi1, hphi2, ?_⟩
  · intro i hi
    rw [hjeq]
    exact argmaxAux_le (histIdxVal hist 256) (256 * 90) i hi
  · rw [chosenDir, hang]
    exact view_dir_eq_raw _ _

/-- Witness for C6 on the histogram whose only positive score is in bin
    (0, 0). -/
theorem C6_bin_selection_witness :
    (∃ x, x < 256 ∧ ∃ y, y < 90 ∧ 0 < oneBinHist x y)
    ∧ ∃ j, j < 256 * 90 ∧ (select oneBinHist 256 90).2 = some j
      ∧ (∀ i, i < 256 * 90 → histIdxVal oneBinHist 256 i ≤ histIdxVal oneBinHist 256 j)
      ∧ (∀ i, i < j → histIdxVal oneBinHist 256 i < histIdxVal oneBinHist 256 j)
      ∧ angles oneBinHist 256 90 = (thetaOfBin 256 (j % 256), phiOfBin 90 (j / 256))
      ∧ Real.pi / 2 ≤ phiOfBin 90 (j / 256) ∧ phiOfBin 90 (j / 256) < Real.pi
      ∧ chosenDir oneBinHist 256 90
          = viewRaw (thetaOfBin 256 (j % 256)) (phiOfBin 90 (j / 256)) := by
  have h : ∃ x, x < 256 ∧ ∃ y, y < 90 ∧ 0 < oneBinHist x y := by
    refine ⟨0, by norm_num, 0, by norm_num, ?_⟩
    rw [oneBinHist]
    norm_num
  exact ⟨h, C6_bin_selection oneBinHist h⟩

/-- Claim C7, counterexample: on a 3-wide, 7-high grid the traversal visits
    cell (2, 2), whose x coordinate is W - 1 = 2, outside the claimed range
    x ≤ W - 2 = 1 — odd (right-to-left) rows start at the rightmost column
    x = W - 1, so the 1-cell border is not skipped on that side. -/
theorem C7_counterexample :
    (2, 2) ∈ grid_trajectory_indices 3 7 ∧ ¬ ((2 : ℕ) ≤ 3 - 2) := by
  constructor
  · decide
  · decide

/-- Claim C7 (amended): the traversal is exactly the serpentine row
    decomposition — rows at y = 1 + 3 * gy (pitch 3), even rows scanning
    x = 1 .. W-2 left to right, odd rows x = W-1 .. 2 right to left, and on
    every row after the first the first column is replaced by two wrap
    entries at y - 2 and y - 1 — and every visited cell satisfies
    1 ≤ x ≤ W - 1 and 1 ≤ y ≤ H - 2 (not x ≤ W - 2 as claimed). -/
theorem C7_serpentine (W H : ℕ) (hW : 3 ≤ W) (hH : 4 ≤ H) :
    grid_trajectory_indices W H = specScan W H
    ∧ ∀ p ∈ grid_trajectory_indices W H,
        1 ≤ p.1 ∧ p.1 ≤ W - 1 ∧ 1 ≤ p.2 ∧ p.2 ≤ H - 2 :=
  ⟨grid_eq_specScan W H hW, grid_bounds W H hW hH⟩

/-- Witness for C7 on the 3 x 7 grid. -/
theorem C7_serpentine_witness :
    ((3 : ℕ) ≤ 3 ∧ (4 : ℕ) ≤ 7)
    ∧ (grid_trajectory_indices 3 7 = specScan 3 7
      ∧ ∀ p ∈ grid_trajectory_indices 3 7,
          1 ≤ p.1 ∧ p.1 ≤ 3 - 1 ∧ 1 ≤ p.2 ∧ p.2 ≤ 7 - 2) :=
  ⟨⟨by norm_num, by norm_num⟩, C7_serpentine 3 7 (by norm_num) (by norm_num)⟩

/-- Claim C8, counterexample: a depth-2 column whose only data slice (z = 0)
    has maximum sample 0 makes the loop keep its default oz = depth - 1 = 1,
    returning the topmost slice, which holds no data at all — even though the
    column is not empty and its maximum sample (0) lives at slice 0. -/
theorem C8_counterexample :
    ozOf badCol 2 = 1 ∧ badCol 1 = none ∧ badCol 0 = some [0]
    ∧ colVal badCol 0 = 0 := by
  refine ⟨?_, rfl, rfl, rfl⟩
  decide

/-- Claim C8 (amended): if some slice of the column has positive value
    (per-slice maximum of its samples, empty slices counting as 0), the
    selection returns the first z attaining the column's maximum value —
    a slice that necessarily holds data; otherwise, including the no-data
    column of the original claim, it returns the topmost slice depth - 1. -/
theorem C8_column_argmax (col : ℕ → Option (List ℚ)) (depth : ℕ) :
    ((∃ z, z < depth ∧ 0 < colVal col z) →
      ozOf col depth < depth
      ∧ ¬ col (ozOf col depth) = none
      ∧ (∀ z, z < depth → colVal col z ≤ colVal col (ozOf col depth))
      ∧ (∀ z, z < ozOf col depth → colVal col z < colVal col (ozOf col depth)))
    ∧ ((∀ z, z < depth → colVal col z ≤ 0) → ozOf col depth = depth - 1) := by
  constructor
  · rintro ⟨z, hz, hv⟩
    obtain ⟨j, hj⟩ := argmaxAux_mem (colVal col) depth ⟨z, hz, hv⟩
    obtain ⟨hjlt, hjeq, hjpos, hjfirst⟩ := argmaxAux_some (colVal col) depth j hj
    have hoz : ozOf col depth = j := by
      rw [ozOf, hj]
    rw [hoz]
    refine ⟨hjlt, ?_, ?_, hjfirst⟩
    · intro hnone
      rw [colVal, hnone] at hjpos
      exact lt_irrefl 0 hjpos
    · intro z' hz'
      rw [hjeq]
      exact argmaxAux_le (colVal col) depth z' hz'
  · intro hall
    rw [ozOf, (argmaxAux_eq_none (colVal col) depth hall).1]

/-- Witness for C8 on the column with one positive sample at z = 0. -/
theorem C8_column_argmax_witness :
    (∃ z, z < 2 ∧ 0 < colVal posCol z)
    ∧ (ozOf posCol 2 < 2
      ∧ ¬ posCol (ozOf posCol 2) = none
      ∧ (∀ z, z < 2 → colVal posCol z ≤ colVal posCol (ozOf posCol 2))
      ∧ (∀ z, z < ozOf posCol 2 → colVal posCol z < colVal posCol (ozOf posCol 2))) := by
  have h : ∃ z, z < 2 ∧ 0 < colVal posCol z := by
    refine ⟨0, by norm_num, ?_⟩
    rw [colVal]
    norm_num [posCol, sliceMax]
  exact ⟨h, (C8_column_argmax posCol 2).1 h⟩

/-- Claim C9: every pose this planner writes into the trajectory — the nadir
    seed poses and the poses rewritten after orientation selection (for any
    selection angles, hence for the pose committed from any histogram) —
    has rotation rows that are mutually orthogonal and unit within 1e-5, and
    translation -R * P. -/
theorem C9_orthonormal_poses (theta phi : ℝ) (pos : V3) (flen : ℝ) (hist : ℕ → ℕ → ℚ) :
    (orthonormalWithin (seedPose pos flen) (1 / 100000)
      ∧ (seedPose pos flen).trans = neg3 (rotApply (seedPose pos flen) pos))
    ∧ (orthonormalWithin (optimizedPose theta phi pos flen) (1 / 100000)
      ∧ (optimizedPose theta phi pos flen).trans
          = neg3 (rotApply (optimizedPose theta phi pos flen) pos))
    ∧ orthonormalWithin (cameraAt hist 256 90 pos flen) (1 / 100000) := by
  have hopt : ∀ a b : ℝ, orthonormalWithin (optimizedPose a b pos flen) (1 / 100000) := by
    intro a b
    refine ⟨?_, ?_, ?_, ?_, ?_, ?_⟩
    · show |dot3 (rxOf a b) (rxOf a b) - 1| ≤ _
      rw [rxOf_unit]
      norm_num
    · show |dot3 (ryOf a b) (ryOf a b) - 1| ≤ _
      rw [ryOf_unit]
      norm_num
    · show |dot3 (view_dir a b) (view_dir a b) - 1| ≤ _
      rw [view_dir_unit]
      norm_num
    · show |dot3 (rxOf a b) (ryOf a b)| ≤ _
      rw [dot3_comm, ryOf_orth_rx]
      norm_num
    · show |dot3 (rxOf a b) (view_dir a b)| ≤ _
      rw [rxOf_orth_rz]
      norm_num
    · show |dot3 (ryOf a b) (view_dir a b)| ≤ _
      rw [ryOf_orth_rz]
      norm_num
  refine ⟨⟨?_, rfl⟩, ⟨hopt theta phi, rfl⟩, hopt _ _⟩
  refine ⟨?_, ?_, ?_, ?_, ?_, ?_⟩ <;> norm_num [seedPose, dot3]

/-- Claim C10: when no histogram bin is strictly positive the selection loop
    keeps its defaults theta = phi = 0, the committed view direction is
    (0, 0, 1) — straight up, while every histogram bin direction points
    downward (z-component nonpositive) — and the pose is still built and
    committed with that forward row and translation -R * P, no error being
    raised. -/
theorem C10_default_up_direction (hist : ℕ → ℕ → ℚ) (pos : V3) (flen : ℝ)
    (h : ∀ x, x < 256 → ∀ y, y < 90 → hist x y ≤ 0) :
    (select hist 256 90).2 = none
    ∧ angles hist 256 90 = (0, 0)
    ∧ chosenDir hist 256 90 = ((0 : ℝ), (0 : ℝ), (1 : ℝ))
    ∧ (cameraAt hist 256 90 pos flen).rot2 = ((0 : ℝ), (0 : ℝ), (1 : ℝ))
    ∧ (cameraAt hist 256 90 pos flen).trans
        = neg3 (rotApply (cameraAt hist 256 90 pos flen) pos)
    ∧ ∀ j, j < 256 * 90 →
        (viewRaw (thetaOfBin 256 (j % 256)) (phiOfBin 90 (j / 256))).2.2 ≤ 0 := by
  obtain ⟨hsel, hang⟩ := select_defaults hist h
  have hdir : chosenDir hist 256 90 = ((0 : ℝ), (0 : ℝ), (1 : ℝ)) := by
    rw [chosenDir, hang]
    exact view_dir_zero_zero
  refine ⟨hsel, hang, hdir, ?_, rfl, ?_⟩
  · show view_dir (angles hist 256 90).1 (angles hist 256 90).2 = _
    rw [hang]
    exact view_dir_zero_zero
  · intro j hj
    have hyj : j / 256 < 90 := by omega
    obtain ⟨h1, h2⟩ := phiOfBin_bounds (j / 256) hyj
    show Real.cos (phiOfBin 90 (j / 256)) ≤ 0
    apply Real.cos_nonpos_of_pi_div_two_le_of_le h1
    have hpi := Real.pi_pos
    linarith

/-- Witness for C10 on the all-zero histogram at the origin. -/
theorem C10_default_up_direction_witness :
    (∀ x, x < 256 → ∀ y, y < 90 → zeroHist x y ≤ 0)
    ∧ ((select zeroHist 256 90).2 = none
      ∧ angles zeroHist 256 90 = (0, 0)
      ∧ chosenDir zeroHist 256 90 = ((0 : ℝ), (0 : ℝ), (1 : ℝ))
      ∧ (cameraAt zeroHist 256 90 zero3 1).rot2 = ((0 : ℝ), (0 : ℝ), (1 : ℝ))
      ∧ (cameraAt zeroHist 256 90 zero3 1).trans
          = neg3 (rotApply (cameraAt zeroHist 256 90 zero3 1) zero3)
      ∧ ∀ j, j < 256 * 90 →
          (viewRaw (thetaOfBin 256 (j % 256)) (phiOfBin 90 (j / 256))).2.2 ≤ 0) :=
  ⟨fun _ _ _ _ => le_refl 0,
    C10_default_up_direction zeroHist zero3 1 (fun _ _ _ _ => le_refl 0)⟩

end PlanTrajectory
